import Mathlib

/-!
Verification of the ACM protocol challenge server (src/main.rs).

The session engine is embedded shallowly: byte strings become `List Char`,
the socket becomes an explicit trace of incoming messages, and wall-clock
time becomes the elapsed-seconds value observed when each read completes
(the engine only samples the clock right after a read, so this is the
abstraction of `SystemTime::elapsed`).  Writes are collected into the list
of messages the server sent.  All definitions are executable.
-/

namespace Acm

/-- The fixed 32-word vocabulary, `WORDS` in src/main.rs (lines 31-35). -/
def WORDS : List (List Char) :=
  ["sky".toList, "lichen".toList, "window".toList, "road".toList, "wall".toList,
   "hill".toList, "sand".toList, "soil".toList, "loam".toList, "sun".toList,
   "star".toList, "root".toList, "rain".toList, "hand".toList, "green".toList,
   "blue".toList, "red".toList, "steam".toList, "steel".toList, "leaf".toList,
   "house".toList, "brush".toList, "stair".toList, "flower".toList, "log".toList,
   "vase".toList, "painting".toList, "cottage".toList, "frog".toList, "stone".toList,
   "pond".toList, "river".toList]

/-- `MAX_TRIES` from src/main.rs line 38. -/
def MAX_TRIES : Nat := 100

/-- `took_too_long` (src/main.rs lines 115-121): elapsed whole seconds
since session start, compared against 5. -/
def took_too_long (elapsedSecs : Nat) : Bool := elapsedSecs > 5

/-- `correct_response` (src/main.rs lines 123-134).  Looks the word up in
`WORDS` and returns the word three places later, cyclically.  The Rust
code panics via `.expect` when the word is absent; that failure is
modelled as `none`. -/
def correct_response (word : List Char) : Option (List Char) :=
  (WORDS.findIdx? (fun w => decide (w = word))).map
    (fun index => WORDS.getD ((index + 3) % WORDS.length) [])

/-- An ASCII apostrophe, written out so the fixed reply strings below can
be assembled without embedding it in a string literal. -/
def apos : Char := '\x27'

/-- Reply sent on a good greeting (src/main.rs line 153). -/
def greetMsg : List Char :=
  "hello! let".toList ++ apos :: "s play a game :3\n".toList

/-- Reply sent on a bad greeting (src/main.rs line 155). -/
def notNiceMsg : List Char :=
  "that".toList ++ apos :: "s not a nice greeting...\n".toList

/-- Reply sent on a bad readiness message (src/main.rs line 162); no
trailing newline. -/
def laterMsg : List Char := "okay, we can play later then...".toList

/-- Reply sent when the 5-second cap is exceeded (src/main.rs line 168). -/
def tooLongMsg : List Char := "you took too long!".toList

/-- Reply sent on a wrong answer (src/main.rs line 190). -/
def wrongWordMsg : List Char := "you said the wrong word!\n".toList

/-- The winning message carrying the flag (src/main.rs line 198). -/
def flagMsg (flag : List Char) : List Char :=
  "good job! the flag is ".toList ++ flag ++ "\n".toList

/-- Rust `str::split(' ')` on a byte buffer: splits at every single space,
keeping empty segments, and yields one (possibly empty) segment for the
empty input. -/
def splitSp : List Char → List (List Char)
  | [] => [[]]
  | c :: cs =>
    match splitSp cs with
    | [] => [[]]
    | t :: ts => if c = ' ' then [] :: t :: ts else (c :: t) :: ts

/-- Rust `slice::join(" ")`: concatenates the words with a single space
between consecutive words. -/
def joinSp : List (List Char) → List Char
  | [] => []
  | [w] => w
  | w :: ws => w ++ ' ' :: joinSp ws

/-- The slice `keywords[8*i..8*i+8]` taken for round `i`
(src/main.rs lines 172-174). -/
def roundSlice (kws : List (List Char)) (i : Nat) : List (List Char) :=
  (kws.drop (8 * i)).take 8

/-- The round prompt: the slice joined by single spaces with a trailing
newline (src/main.rs lines 175-176). -/
def promptOf (slice : List (List Char)) : List Char :=
  joinSp slice ++ "\n".toList

/-- The lazily-mapped `correct_responses` iterator of the round loop
(src/main.rs line 185). -/
def expectedOf (slice : List (List Char)) : List (Option (List Char)) :=
  slice.map correct_response

/-- The comparison loop over `correct_responses.zip(response_words)`
(src/main.rs lines 187-193).  Mirrors Rust iterator semantics: the zip
ends when either side is exhausted, pulling from the expected side first;
pulling a `none` is the `.expect` panic, modelled as `none`; the loop
stops at the first mismatch. -/
def checkPairs : List (Option (List Char)) → List (List Char) → Option Bool
  | [], _ => some true
  | none :: _, _ => none
  | some _ :: _, [] => some true
  | some e :: es, t :: ts => if e = t then checkPairs es ts else some false

/-- One incoming message: its bytes, and the elapsed whole seconds since
session start at which its read completed.  `took_too_long` at a round
entry observes the elapsed time of the most recent read. -/
structure Msg where
  bytes : List Char
  t : Nat

/-- The round loop of `handle_connection` (src/main.rs lines 166-200)
followed by the flag write: `n` rounds remain starting at round `i`,
`now` is the elapsed time observed at the last read, and `msgs` are the
replies still to arrive.  Returns the list of messages the server writes
from this point on.  An exhausted trace models a read error (the `?`
propagation), which sends nothing further. -/
def runRounds (kws : List (List Char)) (flag : List Char) :
    Nat → Nat → Nat → List Msg → List (List Char)
  | _, 0, _, _ => [flagMsg flag]
  | i, n + 1, now, msgs =>
    if took_too_long now then [tooLongMsg]
    else
      match msgs with
      | [] => [promptOf (roundSlice kws i)]
      | m :: rest =>
        match checkPairs (expectedOf (roundSlice kws i)) (splitSp m.bytes) with
        | none => [promptOf (roundSlice kws i)]
        | some true =>
          promptOf (roundSlice kws i) :: runRounds kws flag (i + 1) n m.t rest
        | some false => [promptOf (roundSlice kws i), wrongWordMsg]

/-- `handle_connection` (src/main.rs lines 136-201) as a function of the
shuffled keyword list, the flag, and the trace of incoming messages.
Returns the messages the server writes.  An exhausted trace at a read is
a read error: nothing further is sent. -/
def handle_connection (kws : List (List Char)) (flag : List Char)
    (msgs : List Msg) : List (List Char) :=
  match msgs with
  | [] => []
  | m1 :: rest =>
    if "hello".toList.isPrefixOf m1.bytes then
      greetMsg ::
        match rest with
        | [] => []
        | m2 :: rest2 =>
          if "ok".toList.isPrefixOf m2.bytes then runRounds kws flag 0 4 m2.t rest2
          else [laterMsg]
    else [notNiceMsg]

/-- The winning-trace predicate used to characterise exactly when the
flag message is emitted: the greeting and readiness prefixes are right,
and each of the four rounds passes its entry timeout check and its
answer check. -/
def roundsWin (kws : List (List Char)) : Nat → Nat → Nat → List Msg → Bool
  | _, 0, _, _ => true
  | i, n + 1, now, msgs =>
    if took_too_long now then false
    else
      match msgs with
      | [] => false
      | m :: rest =>
        match checkPairs (expectedOf (roundSlice kws i)) (splitSp m.bytes) with
        | some true => roundsWin kws (i + 1) n m.t rest
        | _ => false

/-- A full session trace wins when the greeting has prefix `hello`, the
readiness message has prefix `ok`, and all four rounds pass. -/
def winSession (kws : List (List Char)) (msgs : List Msg) : Bool :=
  match msgs with
  | m1 :: m2 :: rest =>
    "hello".toList.isPrefixOf m1.bytes &&
      ("ok".toList.isPrefixOf m2.bytes && roundsWin kws 0 4 m2.t rest)
  | _ => false

/-- The n-fold iterate of the answer function, threading the possible
lookup failure through `Option`. -/
def iterAnswer : Nat → List Char → Option (List Char)
  | 0, w => some w
  | n + 1, w => (correct_response w).bind (iterAnswer n)

/-! ## Basic facts about the word table and the fixed reply strings -/

/-- Every vocabulary word is nonempty, has no space, and differs from the
leading tokens of the fixed server messages. -/
lemma words_basic : ∀ w ∈ WORDS,
    w ≠ [] ∧ ' ' ∉ w ∧ w ≠ "good".toList ∧ w ≠ "you".toList := by decide

lemma words_nodup : WORDS.Nodup := by decide

lemma words_length : WORDS.length = 32 := rfl

/-- `correct_response` succeeds on every vocabulary word. -/
lemma cr_isSome : ∀ w ∈ WORDS, (correct_response w).isSome = true := by decide

/-- `correct_response` on the `i`-th vocabulary word returns the word at
position `(i + 3) mod 32`. -/
lemma correct_response_getD (i : Fin 32) :
    correct_response (WORDS.getD i.val []) =
      some (WORDS.getD ((i.val + 3) % 32) []) := by
  revert i; decide

/-- Two lists of characters with different default heads are different. -/
lemma head_ne {a b : List Char} (h : a.headD ' ' ≠ b.headD ' ') : a ≠ b :=
  fun he => h (he ▸ rfl)

lemma flagMsg_ne_notNice (flag : List Char) : flagMsg flag ≠ notNiceMsg :=
  head_ne (show ('g' : Char) ≠ 't' by decide)

lemma flagMsg_ne_greet (flag : List Char) : flagMsg flag ≠ greetMsg :=
  head_ne (show ('g' : Char) ≠ 'h' by decide)

lemma flagMsg_ne_later (flag : List Char) : flagMsg flag ≠ laterMsg :=
  head_ne (show ('g' : Char) ≠ 'o' by decide)

lemma flagMsg_ne_tooLong (flag : List Char) : flagMsg flag ≠ tooLongMsg :=
  head_ne (show ('g' : Char) ≠ 'y' by decide)

lemma flagMsg_ne_wrong (flag : List Char) : flagMsg flag ≠ wrongWordMsg :=
  head_ne (show ('g' : Char) ≠ 'y' by decide)

/-! ## Tokenisation lemmas -/

/-- The first space-free token of a buffer. -/
def firstTok (xs : List Char) : List Char :=
  xs.takeWhile (fun c => decide (c ≠ ' '))

lemma takeWhile_stop {p : Char → Bool} :
    ∀ (xs : List Char) (c : Char) (ys : List Char),
      (∀ a ∈ xs, p a = true) → p c = false →
      List.takeWhile p (xs ++ c :: ys) = xs
  | [], c, ys, _, hc => by simp [List.takeWhile_cons, hc]
  | a :: xs, c, ys, hx, hc => by
    have ha : p a = true := hx a (by simp)
    simp only [List.cons_append, List.takeWhile_cons, ha, if_true]
    rw [takeWhile_stop xs c ys (fun b hb => hx b (by simp [hb])) hc]

lemma firstTok_flagMsg (flag : List Char) :
    firstTok (flagMsg flag) = "good".toList := rfl

lemma firstTok_wrongWord : firstTok wrongWordMsg = "you".toList := rfl

lemma joinSp_cons_cons (w v : List Char) (rest : List (List Char)) :
    joinSp (w :: v :: rest) = w ++ ' ' :: joinSp (v :: rest) := rfl

lemma firstTok_promptOf (w v : List Char) (rest : List (List Char))
    (hw : ' ' ∉ w) : firstTok (promptOf (w :: v :: rest)) = w := by
  have h1 : promptOf (w :: v :: rest) =
      w ++ ' ' :: (joinSp (v :: rest) ++ "\n".toList) := by
    simp [promptOf, joinSp_cons_cons]
  rw [h1]
  exact takeWhile_stop w ' ' _
    (fun a ha => by
      simp only [decide_eq_true_eq]
      exact fun hEq => hw (hEq ▸ ha))
    (by decide)

lemma flagMsg_ne_prompt (flag w v : List Char) (rest : List (List Char))
    (hw : ' ' ∉ w) (hg : w ≠ "good".toList) :
    flagMsg flag ≠ promptOf (w :: v :: rest) := by
  intro h
  have h2 := congrArg firstTok h
  rw [firstTok_flagMsg, firstTok_promptOf w v rest hw] at h2
  exact hg h2.symm

lemma wrong_ne_prompt (w v : List Char) (rest : List (List Char))
    (hw : ' ' ∉ w) (hg : w ≠ "you".toList) :
    wrongWordMsg ≠ promptOf (w :: v :: rest) := by
  intro h
  have h2 := congrArg firstTok h
  rw [firstTok_wrongWord, firstTok_promptOf w v rest hw] at h2
  exact hg h2.symm

/-! ## Round-slice lemmas -/

lemma roundSlice_subset (kws : List (List Char)) (i : Nat) :
    ∀ w, w ∈ roundSlice kws i → w ∈ kws := by
  intro w hw
  exact List.drop_subset _ _ (List.take_subset _ _ hw)

lemma roundSlice_length (kws : List (List Char)) (i : Nat)
    (hlen : kws.length = 32) (hb : 8 * i + 8 ≤ 32) :
    (roundSlice kws i).length = 8 := by
  simp only [roundSlice, List.length_take, List.length_drop, hlen]
  omega

/-- A round slice with the in-range bound splits off its first two words,
the first of which is a vocabulary word (under the permutation
hypothesis) exposing the head token of the prompt. -/
lemma roundSlice_shape (kws : List (List Char)) (i : Nat)
    (hkw : kws.Perm WORDS) (hb : 8 * i + 8 ≤ 32) :
    ∃ w v srest, roundSlice kws i = w :: v :: srest ∧ w ∈ WORDS := by
  have hlen : kws.length = 32 := by rw [hkw.length_eq]; rfl
  have h8 := roundSlice_length kws i hlen hb
  match hs : roundSlice kws i with
  | [] => rw [hs] at h8; simp at h8
  | [w] => rw [hs] at h8; simp at h8
  | w :: v :: srest =>
    refine ⟨w, v, srest, rfl, hkw.subset ?_⟩
    exact roundSlice_subset kws i w (by rw [hs]; simp)

/-- Splitting a space-free buffer yields it as the single token. -/
lemma splitSp_no_space : ∀ (w : List Char), ' ' ∉ w → splitSp w = [w]
  | [], _ => rfl
  | c :: cs, h => by
    have hc : ¬ c = ' ' := fun hEq => h (hEq ▸ List.mem_cons_self c cs)
    have ih := splitSp_no_space cs (fun hm => h (List.mem_cons_of_mem c hm))
    simp [splitSp, ih, hc]

/-- Splitting always yields at least one token. -/
lemma splitSp_ne_nil : ∀ (z : List Char), splitSp z ≠ []
  | [] => by simp [splitSp]
  | c :: cs => by
    have := splitSp_ne_nil cs
    match hs : splitSp cs with
    | [] => exact absurd hs this
    | t :: ts => by_cases hc : c = ' ' <;> simp [splitSp, hs, hc]

/-- Splitting peels off a space-free word before a space. -/
lemma splitSp_append_space :
    ∀ (w : List Char) (z : List Char), ' ' ∉ w →
      splitSp (w ++ ' ' :: z) = w :: splitSp z
  | [], z, _ => by
    have hz := splitSp_ne_nil z
    match hs : splitSp z with
    | [] => exact absurd hs hz
    | t :: ts => simp [splitSp, hs]
  | c :: w, z, h => by
    have hc : ¬ c = ' ' := fun hEq => h (hEq ▸ List.mem_cons_self c w)
    have ih := splitSp_append_space w z (fun hm => h (List.mem_cons_of_mem c hm))
    simp [splitSp, ih, hc]

/-- Joining space-free words and splitting again recovers the words. -/
lemma splitSp_joinSp :
    ∀ (ws : List (List Char)) (w : List Char), (∀ u ∈ w :: ws, ' ' ∉ u) →
      splitSp (joinSp (w :: ws)) = w :: ws
  | [], w, h => splitSp_no_space w (h w (List.mem_cons_self w []))
  | v :: ws, w, h => by
    rw [joinSp_cons_cons]
    rw [splitSp_append_space w _ (h w (List.mem_cons_self w _))]
    rw [splitSp_joinSp ws v (fun u hu => h u (List.mem_cons_of_mem w hu))]

/-! ## checkPairs lemmas -/

/-- With all expected answers defined, `checkPairs` never hits the panic
branch. -/
lemma checkPairs_ne_none :
    ∀ (es : List (Option (List Char))) (ts : List (List Char)),
      (∀ o ∈ es, o.isSome = true) → checkPairs es ts ≠ none
  | [], _, _ => by simp [checkPairs]
  | none :: es, ts, h => by
    have := h none (List.mem_cons_self _ _)
    simp at this
  | some e :: es, [], _ => by simp [checkPairs]
  | some e :: es, t :: ts, h => by
    by_cases he : e = t
    · simp only [checkPairs, he, if_true]
      exact checkPairs_ne_none es ts (fun o ho => h o (List.mem_cons_of_mem _ ho))
    · simp [checkPairs, he]

/-- `checkPairs` over the mapped answers accepts exactly when every token
among the first `min` positions equals the expected answer. -/
lemma checkMatches :
    ∀ (ws ts : List (List Char)),
      (∀ w ∈ ws, (correct_response w).isSome = true) →
      (checkPairs (ws.map correct_response) ts = some true ↔
        ∀ k, k < min ws.length ts.length →
          correct_response (ws.getD k []) = some (ts.getD k []))
  | [], ts, _ => by simp [checkPairs]
  | w :: ws, [], h => by
    obtain ⟨e, he⟩ := Option.isSome_iff_exists.mp (h w (List.mem_cons_self _ _))
    simp [checkPairs, he]
  | w :: ws, t :: ts, h => by
    obtain ⟨e, he⟩ := Option.isSome_iff_exists.mp (h w (List.mem_cons_self _ _))
    have ih := checkMatches ws ts (fun u hu => h u (List.mem_cons_of_mem _ hu))
    simp only [List.map_cons, checkPairs, he]
    by_cases hq : e = t
    · subst hq
      simp only [if_true]
      rw [ih]
      constructor
      · intro hall k hk
        match k with
        | 0 => simp [he]
        | k + 1 =>
          have : k < min ws.length ts.length := by
            simp only [List.length_cons] at hk
            omega
          simpa using hall k this
      · intro hall k hk
        have : k + 1 < min (ws.length + 1) (ts.length + 1) := by
          omega
        simpa using hall (k + 1) (by simp; omega)
    · simp only [if_neg hq]
      constructor
      · intro hfalse; exact absurd hfalse (by simp)
      · intro hall
        have := hall 0 (by simp)
        simp only [List.getD_cons_zero] at this
        rw [he] at this
        exact absurd (Option.some.inj this) hq

/-! ## Characterising when the flag message appears -/

/-- Within a session whose keywords are a permutation of the vocabulary,
the flag message appears in the remaining output exactly when all
remaining rounds pass. -/
lemma flag_mem_runRounds (flag : List Char) (kws : List (List Char))
    (hkw : kws.Perm WORDS) :
    ∀ (n i now : Nat) (msgs : List Msg), 8 * i + 8 * n ≤ 32 →
      (flagMsg flag ∈ runRounds kws flag i n now msgs ↔
        roundsWin kws i n now msgs = true) := by
  intro n
  induction n with
  | zero => intro i now msgs _; simp [runRounds, roundsWin]
  | succ n ih =>
    intro i now msgs hb
    obtain ⟨w, v, srest, hsplit, hwW⟩ :=
      roundSlice_shape kws i hkw (by omega)
    obtain ⟨_, hwsp, hwgood, _⟩ := words_basic w hwW
    have hnp : flagMsg flag ≠ promptOf (roundSlice kws i) := by
      rw [hsplit]; exact flagMsg_ne_prompt flag w v srest hwsp hwgood
    cases htl : took_too_long now with
    | true => simp [runRounds, roundsWin, htl, flagMsg_ne_tooLong flag]
    | false =>
      cases msgs with
      | nil => simp [runRounds, roundsWin, htl, hnp]
      | cons m rest =>
        cases hcp : checkPairs (expectedOf (roundSlice kws i)) (splitSp m.bytes) with
        | none => simp [runRounds, roundsWin, htl, hcp, hnp]
        | some b =>
          cases b with
          | false =>
            simp [runRounds, roundsWin, htl, hcp, hnp, flagMsg_ne_wrong flag]
          | true =>
            have ih2 := ih (i + 1) m.t rest (by omega)
            simp [runRounds, roundsWin, htl, hcp, hnp, ih2]

/-- The remaining-output of the round loop is never the bare wrong-word
message: it is the flag message, the timeout message, or starts with the
prompt of the entered round. -/
lemma runRounds_ne_wrong (flag : List Char) (kws : List (List Char))
    (hkw : kws.Perm WORDS) :
    ∀ (n i now : Nat) (msgs : List Msg), 8 * i + 8 * n ≤ 32 →
      runRounds kws flag i n now msgs ≠ [wrongWordMsg] := by
  intro n i now msgs hb
  cases n with
  | zero =>
    simp only [runRounds]
    intro h
    exact flagMsg_ne_wrong flag (List.cons.inj h).1
  | succ n =>
    obtain ⟨w, v, srest, hsplit, hwW⟩ :=
      roundSlice_shape kws i hkw (by omega)
    obtain ⟨_, hwsp, _, hwyou⟩ := words_basic w hwW
    have hnp : wrongWordMsg ≠ promptOf (roundSlice kws i) := by
      rw [hsplit]; exact wrong_ne_prompt w v srest hwsp hwyou
    cases htl : took_too_long now with
    | true =>
      simp only [runRounds, htl, if_true]
      intro h
      have := (List.cons.inj h).1
      exact absurd this.symm (by decide)
    | false =>
      cases msgs with
      | nil =>
        simp only [runRounds, htl]
        intro h
        exact hnp ((List.cons.inj h).1).symm
      | cons m rest =>
        cases hcp : checkPairs (expectedOf (roundSlice kws i)) (splitSp m.bytes) with
        | none =>
          simp only [runRounds, htl, hcp]
          intro h
          exact hnp ((List.cons.inj h).1).symm
        | some b =>
          cases b with
          | false =>
            simp only [runRounds, htl, hcp]
            intro h
            exact hnp ((List.cons.inj h).1).symm
          | true =>
            simp only [runRounds, htl, hcp]
            intro h
            exact hnp ((List.cons.inj h).1).symm

/-! ## Concrete winning replies for the identity permutation -/

/-- Correct round-0 reply when the keywords are in table order. -/
def reply0 : List Char := "road wall hill sand soil loam sun star".toList

/-- Correct round-1 reply when the keywords are in table order. -/
def reply1 : List Char := "root rain hand green blue red steam steel".toList

/-- Correct round-2 reply when the keywords are in table order. -/
def reply2 : List Char := "leaf house brush stair flower log vase painting".toList

/-- Correct round-3 reply when the keywords are in table order. -/
def reply3 : List Char := "cottage frog stone pond river sky lichen window".toList

/-! ## Claim theorems -/

/-- Claim C1 (amended): for any session whose keywords are a permutation
of the vocabulary, the flag message is emitted exactly when the greeting
has prefix `hello`, the readiness message has prefix `ok`, and each of
the four rounds passes both its entry timeout check (taken on the elapsed
time of the message read just before the round) and its answer check.
Nothing constrains how late the fourth reply itself arrives. -/
theorem flag_exactly_on_win (kws : List (List Char)) (hkw : kws.Perm WORDS)
    (flag : List Char) (msgs : List Msg) :
    flagMsg flag ∈ handle_connection kws flag msgs ↔
      winSession kws msgs = true := by
  cases msgs with
  | nil => simp [handle_connection, winSession]
  | cons m1 rest =>
    cases hh : "hello".toList.isPrefixOf m1.bytes with
    | false =>
      have hh2 : ¬ ((['h', 'e', 'l', 'l', 'o'] : List Char) <+: m1.bytes) := by
        rw [show (['h', 'e', 'l', 'l', 'o'] : List Char) = "hello".toList from rfl,
          ← List.isPrefixOf_iff_prefix, hh]
        simp
      cases rest with
      | nil => simp [handle_connection, winSession, hh2, flagMsg_ne_notNice flag]
      | cons m2 rest2 =>
        simp [handle_connection, winSession, hh2, flagMsg_ne_notNice flag]
    | true =>
      have hh2 : (['h', 'e', 'l', 'l', 'o'] : List Char) <+: m1.bytes := by
        rw [show (['h', 'e', 'l', 'l', 'o'] : List Char) = "hello".toList from rfl,
          ← List.isPrefixOf_iff_prefix, hh]
      cases rest with
      | nil => simp [handle_connection, winSession, hh2, flagMsg_ne_greet flag]
      | cons m2 rest2 =>
        cases ho : "ok".toList.isPrefixOf m2.bytes with
        | false =>
          have ho2 : ¬ ((['o', 'k'] : List Char) <+: m2.bytes) := by
            rw [show (['o', 'k'] : List Char) = "ok".toList from rfl,
              ← List.isPrefixOf_iff_prefix, ho]
            simp
          simp [handle_connection, winSession, hh2, ho2, flagMsg_ne_greet flag,
            flagMsg_ne_later flag]
        | true =>
          have ho2 : (['o', 'k'] : List Char) <+: m2.bytes := by
            rw [show (['o', 'k'] : List Char) = "ok".toList from rfl,
              ← List.isPrefixOf_iff_prefix, ho]
          have hmem := flag_mem_runRounds flag kws hkw 4 0 m2.t rest2 (by omega)
          simp [handle_connection, winSession, hh2, ho2, flagMsg_ne_greet flag, hmem]

/-- Claim C1, counterexample to the claim as stated: a session whose
first three round replies arrive at once but whose fourth reply arrives
at elapsed time 1000 s (far beyond the 5 s cap) still receives the flag
message, because no timeout check runs after the fourth prompt. -/
theorem flag_after_deadline_cex :
    flagMsg "FLAG".toList ∈ handle_connection WORDS "FLAG".toList
      [⟨"hello".toList, 0⟩, ⟨"ok".toList, 0⟩, ⟨reply0, 0⟩, ⟨reply1, 0⟩,
       ⟨reply2, 0⟩, ⟨reply3, 1000⟩] ∧
    took_too_long 1000 = true :=
  ⟨by decide, rfl⟩

/-- Witness for `flag_exactly_on_win` at a concrete winning trace. -/
theorem flag_exactly_on_win_witness :
    flagMsg "FLAG".toList ∈ handle_connection WORDS "FLAG".toList
      [⟨"hello".toList, 0⟩, ⟨"ok".toList, 0⟩, ⟨reply0, 0⟩, ⟨reply1, 0⟩,
       ⟨reply2, 0⟩, ⟨reply3, 0⟩] :=
  (flag_exactly_on_win WORDS (List.Perm.refl WORDS) "FLAG".toList
    [⟨"hello".toList, 0⟩, ⟨"ok".toList, 0⟩, ⟨reply0, 0⟩, ⟨reply1, 0⟩,
     ⟨reply2, 0⟩, ⟨reply3, 0⟩]).mpr (by decide)

/-- Claim C2 (amended): within the 5-second window, a round advances
exactly when every token of the reply matches the expected answer
positionwise over the first `min 8 (number of tokens)` positions; the
comparison loop stops at the shorter side of the zip, so a reply with
fewer than eight tokens that are all correct does advance the round. -/
theorem round_advance_iff (kws : List (List Char)) (flag : List Char)
    (i n now : Nat) (m : Msg) (rest : List Msg)
    (hkw : kws.Perm WORDS) (hb : 8 * i + 8 * (n + 1) ≤ 32)
    (htl : took_too_long now = false) :
    (runRounds kws flag i (n + 1) now (m :: rest) =
        promptOf (roundSlice kws i) :: runRounds kws flag (i + 1) n m.t rest ∨
      runRounds kws flag i (n + 1) now (m :: rest) =
        [promptOf (roundSlice kws i), wrongWordMsg]) ∧
    (runRounds kws flag i (n + 1) now (m :: rest) =
        promptOf (roundSlice kws i) :: runRounds kws flag (i + 1) n m.t rest ↔
      ∀ k, k < min 8 (splitSp m.bytes).length →
        correct_response ((roundSlice kws i).getD k []) =
          some ((splitSp m.bytes).getD k [])) := by
  have hlen : kws.length = 32 := by rw [hkw.length_eq]; rfl
  have hsl : (roundSlice kws i).length = 8 :=
    roundSlice_length kws i hlen (by omega)
  have hsome : ∀ w ∈ roundSlice kws i, (correct_response w).isSome = true :=
    fun w hw => cr_isSome w (hkw.subset (roundSlice_subset kws i w hw))
  have hcm := checkMatches (roundSlice kws i) (splitSp m.bytes) hsome
  rw [hsl] at hcm
  have hnone : checkPairs (expectedOf (roundSlice kws i)) (splitSp m.bytes) ≠ none := by
    simp only [expectedOf]
    refine checkPairs_ne_none _ _ ?_
    intro o ho
    rw [List.mem_map] at ho
    obtain ⟨w, hw, rfl⟩ := ho
    exact hsome w hw
  cases hcp : checkPairs (expectedOf (roundSlice kws i)) (splitSp m.bytes) with
  | none => exact absurd hcp hnone
  | some b =>
    cases b with
    | true =>
      have heq : runRounds kws flag i (n + 1) now (m :: rest) =
          promptOf (roundSlice kws i) :: runRounds kws flag (i + 1) n m.t rest := by
        simp [runRounds, htl, hcp]
      have hiff := hcm.mp (by simpa [expectedOf] using hcp)
      exact ⟨Or.inl heq, ⟨fun _ => hiff, fun _ => heq⟩⟩
    | false =>
      have heq : runRounds kws flag i (n + 1) now (m :: rest) =
          [promptOf (roundSlice kws i), wrongWordMsg] := by
        simp [runRounds, htl, hcp]
      refine ⟨Or.inr heq, ⟨fun hl => ?_, fun hforall => ?_⟩⟩
      · rw [heq] at hl
        have h2 := (List.cons.inj hl).2
        exact absurd h2.symm
          (runRounds_ne_wrong flag kws hkw n (i + 1) m.t rest (by omega))
      · have hT : checkPairs (expectedOf (roundSlice kws i)) (splitSp m.bytes) =
            some true := by
          simpa [expectedOf] using hcm.mpr hforall
        rw [hcp] at hT
        exact absurd hT (by simp)

/-- Claim C2, counterexample to the claim as stated: four replies of a
single (correct) token each, far fewer than eight tokens, advance every
round and win the flag. -/
theorem short_reply_win_cex :
    flagMsg "CTF".toList ∈ handle_connection WORDS "CTF".toList
      [⟨"hello".toList, 0⟩, ⟨"ok".toList, 0⟩, ⟨"road".toList, 0⟩,
       ⟨"root".toList, 0⟩, ⟨"leaf".toList, 0⟩, ⟨"cottage".toList, 0⟩] ∧
    (splitSp "road".toList).length = 1 :=
  ⟨by decide, by decide⟩

/-- Witness for `round_advance_iff` at a concrete full correct reply. -/
theorem round_advance_iff_witness :
    runRounds WORDS "WIT".toList 0 4 0 [⟨reply0, 0⟩] =
      promptOf (roundSlice WORDS 0) :: runRounds WORDS "WIT".toList 1 3 0 [] :=
  ((round_advance_iff WORDS "WIT".toList 0 3 0 ⟨reply0, 0⟩ []
      (List.Perm.refl WORDS) (by decide) rfl).2).mpr (by decide)

/-- Claim C3: the code rejects a well-formed reply that carries the eight
correct answers separated by single spaces and terminated by a newline.
The buffer is split on spaces without stripping the newline, so the
eighth token keeps the trailing newline and mismatches; the server
answers with the wrong-word message and never sends the flag.  The
second conjunct certifies that the reply minus its newline is exactly
the correct answer line for round 0. -/
theorem trailing_newline_mismatch :
    handle_connection WORDS "FLAG".toList
        [⟨"hello".toList, 0⟩, ⟨"ok".toList, 0⟩,
         ⟨"road wall hill sand soil loam sun star\n".toList, 0⟩] =
      [greetMsg, promptOf (roundSlice WORDS 0), wrongWordMsg] ∧
    "road wall hill sand soil loam sun star".toList =
      joinSp ((roundSlice WORDS 0).map (fun w => (correct_response w).getD [])) ∧
    flagMsg "FLAG".toList ∉ handle_connection WORDS "FLAG".toList
        [⟨"hello".toList, 0⟩, ⟨"ok".toList, 0⟩,
         ⟨"road wall hill sand soil loam sun star\n".toList, 0⟩] :=
  ⟨by decide, by decide, by decide⟩

/-- Claim C4: at entry to a round with at least one round remaining, if
the elapsed time observed at the last read exceeds 5 seconds the output
from this point is exactly the too-long message (no prompt, no flag);
otherwise the round prompt is the next message sent.  The timeout test
is exactly `elapsed > 5`. -/
theorem round_entry_timeout (kws : List (List Char)) (flag : List Char)
    (i n now : Nat) (msgs : List Msg) :
    (took_too_long now = true →
      runRounds kws flag i (n + 1) now msgs = [tooLongMsg] ∧
        flagMsg flag ∉ ([tooLongMsg] : List (List Char))) ∧
    (took_too_long now = false →
      ∃ tail, runRounds kws flag i (n + 1) now msgs =
        promptOf (roundSlice kws i) :: tail) ∧
    (took_too_long now = true ↔ 5 < now) := by
  refine ⟨fun htl => ⟨by simp [runRounds, htl], by simp [flagMsg_ne_tooLong flag]⟩,
    fun htl => ?_, by simp [took_too_long]⟩
  cases msgs with
  | nil => exact ⟨[], by simp [runRounds, htl]⟩
  | cons m rest =>
    cases hcp : checkPairs (expectedOf (roundSlice kws i)) (splitSp m.bytes) with
    | none => exact ⟨[], by simp [runRounds, htl, hcp]⟩
    | some b =>
      cases b with
      | true =>
        exact ⟨runRounds kws flag (i + 1) n m.t rest,
          by simp [runRounds, htl, hcp]⟩
      | false => exact ⟨[wrongWordMsg], by simp [runRounds, htl, hcp]⟩

/-- Witness for `round_entry_timeout` at elapsed time 6 s. -/
theorem round_entry_timeout_witness :
    runRounds WORDS "F".toList 0 4 6 [] = [tooLongMsg] ∧
      flagMsg "F".toList ∉ ([tooLongMsg] : List (List Char)) :=
  (round_entry_timeout WORDS "F".toList 0 3 6 []).1 rfl

/-- Claim C5: on the `i`-th vocabulary word, `correct_response` is
defined and returns the word at position `(i + 3) mod 32`. -/
theorem answer_table_correct : ∀ i : Fin 32,
    correct_response (WORDS.getD i.val []) =
      some (WORDS.getD ((i.val + 3) % 32) []) := by decide

/-- Claim C7: a first message without the `hello` byte prefix gets
exactly the not-nice message and nothing else; a good greeting followed
by a second message without the `ok` byte prefix gets exactly the
greeting reply followed by the play-later message and nothing else. -/
theorem rejection_paths (kws : List (List Char)) (flag : List Char)
    (m1 m2 : Msg) (rest : List Msg) :
    ("hello".toList.isPrefixOf m1.bytes = false →
      handle_connection kws flag (m1 :: rest) = [notNiceMsg]) ∧
    ("hello".toList.isPrefixOf m1.bytes = true →
      "ok".toList.isPrefixOf m2.bytes = false →
      handle_connection kws flag (m1 :: m2 :: rest) = [greetMsg, laterMsg]) := by
  constructor
  · intro h
    have h2 : ¬ ((['h', 'e', 'l', 'l', 'o'] : List Char) <+: m1.bytes) := by
      rw [show (['h', 'e', 'l', 'l', 'o'] : List Char) = "hello".toList from rfl,
        ← List.isPrefixOf_iff_prefix, h]
      simp
    cases rest with
    | nil => simp [handle_connection, h2]
    | cons a b => simp [handle_connection, h2]
  · intro h1 h2
    have h1b : (['h', 'e', 'l', 'l', 'o'] : List Char) <+: m1.bytes := by
      rw [show (['h', 'e', 'l', 'l', 'o'] : List Char) = "hello".toList from rfl,
        ← List.isPrefixOf_iff_prefix, h1]
    have h2b : ¬ ((['o', 'k'] : List Char) <+: m2.bytes) := by
      rw [show (['o', 'k'] : List Char) = "ok".toList from rfl,
        ← List.isPrefixOf_iff_prefix, h2]
      simp
    simp [handle_connection, h1b, h2b]

/-- Witness for `rejection_paths` on the traces `hi` and `hello`/`no`. -/
theorem rejection_paths_witness :
    handle_connection WORDS "F2".toList [⟨"hi".toList, 0⟩] = [notNiceMsg] ∧
    handle_connection WORDS "F2".toList
        [⟨"hello".toList, 0⟩, ⟨"no".toList, 0⟩] = [greetMsg, laterMsg] :=
  ⟨(rejection_paths WORDS "F2".toList ⟨"hi".toList, 0⟩ ⟨"no".toList, 0⟩ []).1
      (by decide),
   (rejection_paths WORDS "F2".toList ⟨"hello".toList, 0⟩ ⟨"no".toList, 0⟩ []).2
      (by decide) (by decide)⟩

/-- Claim C9: the n-fold iterate of the answer function on the `i`-th
vocabulary word is the word at position `(i + 3 n) mod 32`; in
particular 32 iterations return the word itself. -/
theorem answer_iterates : ∀ (i : Fin 32) (n : Nat),
    iterAnswer n (WORDS.getD i.val []) =
      some (WORDS.getD ((i.val + 3 * n) % 32) []) ∧
    iterAnswer 32 (WORDS.getD i.val []) = some (WORDS.getD i.val []) := by
  have main : ∀ (n : Nat) (i : Fin 32),
      iterAnswer n (WORDS.getD i.val []) =
        some (WORDS.getD ((i.val + 3 * n) % 32) []) := by
    intro n
    induction n with
    | zero =>
      intro i
      have hi := i.isLt
      have hmod : (i.val + 3 * 0) % 32 = i.val := by omega
      rw [hmod]
      rfl
    | succ n ih =>
      intro i
      have hi := i.isLt
      have hlt : (i.val + 3) % 32 < 32 := Nat.mod_lt _ (by omega)
      have hstep := correct_response_getD i
      have hrec := ih ⟨(i.val + 3) % 32, hlt⟩
      have h1 : iterAnswer (n + 1) (WORDS.getD i.val []) =
          (correct_response (WORDS.getD i.val [])).bind (iterAnswer n) := rfl
      rw [h1, hstep]
      have h2 : (some (WORDS.getD ((i.val + 3) % 32) [])).bind (iterAnswer n) =
          iterAnswer n (WORDS.getD ((i.val + 3) % 32) []) := rfl
      rw [h2, hrec]
      have hmod : ((i.val + 3) % 32 + 3 * n) % 32 = (i.val + 3 * (n + 1)) % 32 := by
        omega
      rw [hmod]
  intro i n
  refine ⟨main n i, ?_⟩
  have h := main 32 i
  have hi := i.isLt
  have hmod : (i.val + 3 * 32) % 32 = i.val := by omega
  rw [hmod] at h
  exact h

/-- Claim C10: no timeout check runs once the fourth prompt is out.  For
every arrival time `t` of the (correct) round-3 reply — arbitrarily far
beyond the 5-second cap — the flag message is still sent, provided the
earlier reads all arrived at elapsed time 0. -/
theorem no_timeout_after_last_prompt (t : Nat) (flag : List Char) :
    flagMsg flag ∈ handle_connection WORDS flag
      [⟨"hello".toList, 0⟩, ⟨"ok".toList, 0⟩, ⟨reply0, 0⟩, ⟨reply1, 0⟩,
       ⟨reply2, 0⟩, ⟨reply3, t⟩] := by
  have h : handle_connection WORDS flag
      [⟨"hello".toList, 0⟩, ⟨"ok".toList, 0⟩, ⟨reply0, 0⟩, ⟨reply1, 0⟩,
       ⟨reply2, 0⟩, ⟨reply3, t⟩] =
      [greetMsg, promptOf (roundSlice WORDS 0), promptOf (roundSlice WORDS 1),
       promptOf (roundSlice WORDS 2), promptOf (roundSlice WORDS 3),
       flagMsg flag] := rfl
  rw [h]
  simp


/-- Claim C6: for keywords that are a permutation of the vocabulary, the
four round slices concatenate back to the keyword list, their
concatenation is a permutation of the vocabulary (so the multiset of
prompted words is exactly the word table), every slice has exactly 8
words, distinct rounds prompt disjoint word sets, splitting a prompt
line recovers exactly the slice in order, and the prompt is the slice
joined by single spaces plus a newline. -/
theorem prompts_partition (kws : List (List Char)) (hkw : kws.Perm WORDS) :
    roundSlice kws 0 ++ (roundSlice kws 1 ++ (roundSlice kws 2 ++ roundSlice kws 3)) = kws ∧
    (roundSlice kws 0 ++ (roundSlice kws 1 ++ (roundSlice kws 2 ++ roundSlice kws 3))).Perm WORDS ∧
    (∀ i, i < 4 → (roundSlice kws i).length = 8) ∧
    (∀ i j, i < 4 → j < 4 → i ≠ j →
      ∀ w, w ∈ roundSlice kws i → w ∉ roundSlice kws j) ∧
    (∀ i, i < 4 → splitSp (joinSp (roundSlice kws i)) = roundSlice kws i) ∧
    (∀ i, i < 4 → promptOf (roundSlice kws i) =
      joinSp (roundSlice kws i) ++ "\n".toList) := by
  have hlen : kws.length = 32 := by rw [hkw.length_eq]; rfl
  have e0 : roundSlice kws 0 = kws.take 8 := by norm_num [roundSlice]
  have e1 : roundSlice kws 1 = (kws.drop 8).take 8 := by norm_num [roundSlice]
  have e2 : roundSlice kws 2 = (kws.drop 16).take 8 := by norm_num [roundSlice]
  have e3 : roundSlice kws 3 = (kws.drop 24).take 8 := by norm_num [roundSlice]
  have h3full : (kws.drop 24).take 8 = kws.drop 24 :=
    List.take_of_length_le (by simp [hlen])
  have key : roundSlice kws 0 ++
      (roundSlice kws 1 ++ (roundSlice kws 2 ++ roundSlice kws 3)) = kws := by
    rw [e0, e1, e2, e3, h3full]
    have t1 : (kws.drop 16).take 8 ++ kws.drop 24 = kws.drop 16 := by
      have h := List.take_append_drop 8 (kws.drop 16)
      rw [List.drop_drop] at h
      norm_num at h
      exact h
    have t2 : (kws.drop 8).take 8 ++ kws.drop 16 = kws.drop 8 := by
      have h := List.take_append_drop 8 (kws.drop 8)
      rw [List.drop_drop] at h
      norm_num at h
      exact h
    rw [t1, t2]
    exact List.take_append_drop 8 kws
  have hnd : (roundSlice kws 0 ++
      (roundSlice kws 1 ++ (roundSlice kws 2 ++ roundSlice kws 3))).Nodup := by
    rw [key]
    exact hkw.nodup_iff.mpr words_nodup
  rw [List.nodup_append] at hnd
  obtain ⟨h0n, hrest, hd0⟩ := hnd
  rw [List.nodup_append] at hrest
  obtain ⟨h1n, hrest2, hd1⟩ := hrest
  rw [List.nodup_append] at hrest2
  obtain ⟨h2n, h3n, hd2⟩ := hrest2
  have d01 : ∀ w, w ∈ roundSlice kws 0 → w ∈ roundSlice kws 1 → False :=
    fun w hw0 hw1 => hd0 hw0 (List.mem_append_left _ hw1)
  have d02 : ∀ w, w ∈ roundSlice kws 0 → w ∈ roundSlice kws 2 → False :=
    fun w hw0 hw2 =>
      hd0 hw0 (List.mem_append_right _ (List.mem_append_left _ hw2))
  have d03 : ∀ w, w ∈ roundSlice kws 0 → w ∈ roundSlice kws 3 → False :=
    fun w hw0 hw3 =>
      hd0 hw0 (List.mem_append_right _ (List.mem_append_right _ hw3))
  have d12 : ∀ w, w ∈ roundSlice kws 1 → w ∈ roundSlice kws 2 → False :=
    fun w hw1 hw2 => hd1 hw1 (List.mem_append_left _ hw2)
  have d13 : ∀ w, w ∈ roundSlice kws 1 → w ∈ roundSlice kws 3 → False :=
    fun w hw1 hw3 => hd1 hw1 (List.mem_append_right _ hw3)
  have d23 : ∀ w, w ∈ roundSlice kws 2 → w ∈ roundSlice kws 3 → False :=
    fun w hw2 hw3 => hd2 hw2 hw3
  refine ⟨key, by rw [key]; exact hkw, ?_, ?_, ?_, fun i _ => rfl⟩
  · intro i hi
    exact roundSlice_length kws i hlen (by omega)
  · intro i j hi hj hij w hwi hwj
    interval_cases i <;> interval_cases j <;>
      first
      | exact hij rfl
      | exact d01 w hwi hwj
      | exact d01 w hwj hwi
      | exact d02 w hwi hwj
      | exact d02 w hwj hwi
      | exact d03 w hwi hwj
      | exact d03 w hwj hwi
      | exact d12 w hwi hwj
      | exact d12 w hwj hwi
      | exact d13 w hwi hwj
      | exact d13 w hwj hwi
      | exact d23 w hwi hwj
      | exact d23 w hwj hwi
  · intro i hi
    obtain ⟨w, v, srest, hsplit, _⟩ := roundSlice_shape kws i hkw (by omega)
    have hns : ∀ u ∈ roundSlice kws i, ' ' ∉ u := fun u hu =>
      (words_basic u (hkw.subset (roundSlice_subset kws i u hu))).2.1
    rw [hsplit]
    exact splitSp_joinSp (v :: srest) w (fun u hu => hns u (hsplit ▸ hu))

/-- Witness for `prompts_partition` at the identity permutation. -/
theorem prompts_partition_witness :
    roundSlice WORDS 0 ++
      (roundSlice WORDS 1 ++ (roundSlice WORDS 2 ++ roundSlice WORDS 3)) = WORDS :=
  (prompts_partition WORDS (List.Perm.refl WORDS)).1


/-! ## The framed-message adapter `read_message` (src/main.rs lines 48-77) -/

/-- One iteration of the `read_message` loop, as seen from the socket:
either `readable()` fails, or it succeeds and `try_read_buf` appends a
chunk (possibly empty), reports would-block, or fails. -/
inductive IoEvent where
  | notReadable
  | chunk (bytes : List Char)
  | wouldBlock
  | readFail
deriving DecidableEq

/-- The error kinds `read_message` can surface: the broken-pipe error
built for a zero-length read, a persistent readiness failure, or a
persistent read failure. -/
inductive IoErr where
  | brokenPipe
  | readableErr
  | readErr
deriving DecidableEq

/-- The retry loop of `read_message`: `readableTries` and `readTries`
are the two failure counters, `buf` is the (already cleared) buffer that
`try_read_buf` appends to.  `none` means the supplied event trace ended
before the loop resolved. -/
def read_message_loop (readableTries readTries : Nat) (buf : List Char) :
    List IoEvent → Option (Except IoErr (Nat × List Char))
  | [] => none
  | e :: rest =>
    match e with
    | .notReadable =>
      if readableTries > MAX_TRIES then some (.error .readableErr)
      else read_message_loop (readableTries + 1) readTries buf rest
    | .chunk bs =>
      if bs.length = 0 then some (.error .brokenPipe)
      else some (.ok (bs.length, buf ++ bs))
    | .wouldBlock => read_message_loop readableTries readTries buf rest
    | .readFail =>
      if readTries > MAX_TRIES then some (.error .readErr)
      else read_message_loop readableTries (readTries + 1) buf rest

set_option linter.unusedVariables false in
/-- `read_message` (src/main.rs lines 48-77): clears the buffer, then
runs the retry loop with both counters at zero against the event trace.
The incoming buffer is deliberately unused: `buf.clear()` discards it. -/
def read_message (buf : List Char) (events : List IoEvent) :
    Option (Except IoErr (Nat × List Char)) :=
  read_message_loop 0 0 [] events

/-- Discriminator: is this event a successful chunk? -/
def IoEvent.isChunk : IoEvent → Bool
  | .chunk _ => true
  | _ => false

/-- Discriminator: is this event a readiness failure? -/
def IoEvent.isNotReadable : IoEvent → Bool
  | .notReadable => true
  | _ => false

/-- Discriminator: is this event a read failure? -/
def IoEvent.isReadFail : IoEvent → Bool
  | .readFail => true
  | _ => false

/-- The loop skips over a chunk-free prefix with bounded failure counts
and resolves at the first chunk event. -/
lemma read_loop_pre (bs : List Char) (rest : List IoEvent) :
    ∀ (pre : List IoEvent) (rdbT rdT : Nat) (b : List Char),
      (∀ e ∈ pre, e.isChunk = false) →
      rdbT + pre.countP IoEvent.isNotReadable ≤ MAX_TRIES →
      rdT + pre.countP IoEvent.isReadFail ≤ MAX_TRIES →
      read_message_loop rdbT rdT b (pre ++ .chunk bs :: rest) =
        if bs.length = 0 then some (.error .brokenPipe)
        else some (.ok (bs.length, b ++ bs))
  | [], rdbT, rdT, b, _, _, _ => by
    simp [read_message_loop]
  | e :: pre, rdbT, rdT, b, hnc, hn, hr => by
    have hh := hnc e (List.mem_cons_self _ _)
    have htail : ∀ x ∈ pre, x.isChunk = false :=
      fun x hx => hnc x (List.mem_cons_of_mem _ hx)
    cases e with
    | notReadable =>
      rw [List.countP_cons] at hn
      simp only [IoEvent.isNotReadable, if_true] at hn
      have hlt : ¬ rdbT > MAX_TRIES := by omega
      simp only [List.cons_append, read_message_loop, hlt, if_false]
      exact read_loop_pre bs rest pre (rdbT + 1) rdT b htail (by omega)
        (by rw [List.countP_cons] at hr; simp [IoEvent.isReadFail] at hr; omega)
    | chunk cbs => simp [IoEvent.isChunk] at hh
    | wouldBlock =>
      simp only [List.cons_append, read_message_loop]
      refine read_loop_pre bs rest pre rdbT rdT b htail ?_ ?_
      · rw [List.countP_cons] at hn
        simp [IoEvent.isNotReadable] at hn
        omega
      · rw [List.countP_cons] at hr
        simp [IoEvent.isReadFail] at hr
        omega
    | readFail =>
      rw [List.countP_cons] at hr
      simp only [IoEvent.isReadFail, if_true] at hr
      have hlt : ¬ rdT > MAX_TRIES := by omega
      simp only [List.cons_append, read_message_loop, hlt, if_false]
      exact read_loop_pre bs rest pre rdbT (rdT + 1) b htail
        (by rw [List.countP_cons] at hn; simp [IoEvent.isNotReadable] at hn; omega)
        (by omega)

/-- After `MAX_TRIES + 2` consecutive read failures the loop surfaces
the read error. -/
lemma read_loop_fails (rest : List IoEvent) :
    ∀ (j rdbT rdT : Nat) (b : List Char),
      j + rdT = MAX_TRIES + 2 → rdT ≤ MAX_TRIES + 1 →
      read_message_loop rdbT rdT b (List.replicate j .readFail ++ rest) =
        some (.error .readErr)
  | 0, rdbT, rdT, b, hj, hled => by omega
  | j + 1, rdbT, rdT, b, hj, hled => by
    simp only [List.replicate_succ, List.cons_append, read_message_loop]
    by_cases hgt : rdT > MAX_TRIES
    · simp [hgt]
    · simp only [hgt, if_false]
      exact read_loop_fails rest j rdbT (rdT + 1) b (by omega) (by omega)

/-- Claim C8: `read_message` ignores the incoming buffer content (the
clear), and on any chunk-free prefix with at most `MAX_TRIES` readiness
failures and at most `MAX_TRIES` read failures (would-block events are
unrestricted retries) it resolves at the first chunk: a non-empty chunk
returns `Ok` with the byte count and exactly that chunk in the buffer,
an empty chunk returns the broken-pipe error.  A run of `MAX_TRIES + 2`
read failures surfaces the read error. -/
theorem read_message_spec (buf : List Char) (events pre rest : List IoEvent)
    (bs : List Char)
    (hnc : ∀ e ∈ pre, e.isChunk = false)
    (hn : pre.countP IoEvent.isNotReadable ≤ MAX_TRIES)
    (hr : pre.countP IoEvent.isReadFail ≤ MAX_TRIES) :
    (read_message buf (pre ++ .chunk bs :: rest) =
      if bs.length = 0 then some (.error .brokenPipe)
      else some (.ok (bs.length, bs))) ∧
    read_message buf (List.replicate (MAX_TRIES + 2) .readFail ++ rest) =
      some (.error .readErr) ∧
    read_message buf events = read_message [] events := by
  refine ⟨?_, ?_, rfl⟩
  · have h := read_loop_pre bs rest pre 0 0 [] hnc (by omega) (by omega)
    simpa [read_message] using h
  · exact read_loop_fails rest (MAX_TRIES + 2) 0 0 [] (by omega) (by omega)

/-- Witness for `read_message_spec`: a would-block, one readiness
failure and one read failure are all retried, then the two-byte chunk
`hi` is returned. -/
theorem read_message_spec_witness :
    read_message "old".toList
        ([.wouldBlock, .notReadable, .readFail] ++ [.chunk "hi".toList]) =
      some (.ok (2, "hi".toList)) := by
  have h := (read_message_spec "old".toList []
    [.wouldBlock, .notReadable, .readFail] [] "hi".toList
    (by decide) (by decide) (by decide)).1
  simpa using h

end Acm
